import Mathlib

/-
Verification of the CHC-graph layer and the k-induction engine of the golem
CHC solver (files ChcGraph.cpp, Kind.cpp, AcceleratedBmc.h).

The SMT term layer is external to the repository; terms are modelled as
syntax trees whose leaves are versioned variables `Term.var base version`
(version 0 = current state, version 1 = next state), opaque constants
`Term.cst`, and binary applications `Term.app f l r`.  The external term
factory functions `mkOr`/`mkAnd` are modelled as right folds of a binary
application; the external trivial quantifier elimination is a function
parameter `qe` of the graph operations that consume it.
-/

inductive Term where
  | var : Nat → Nat → Term
  | cst : Nat → Term
  | app : Nat → Term → Term → Term
deriving DecidableEq

def Term.vars : Term → List (Nat × Nat)
  | .var b v => [(b, v)]
  | .cst _ => []
  | .app _ l r => l.vars ++ r.vars

/-- Simultaneous variable substitution (models TermUtils::varSubstitute). -/
def substTerm (sub : Nat × Nat → Nat × Nat) : Term → Term
  | .var b v => Term.var (sub (b, v)).1 (sub (b, v)).2
  | .cst c => Term.cst c
  | .app f l r => Term.app f (substTerm sub l) (substTerm sub r)

/-- Model of the external n-ary disjunction constructor `logic.mkOr`. -/
def mkOr (l : List Term) : Term := l.foldr (fun a b => Term.app 1 a b) (Term.cst 0)

/-- Model of the external n-ary conjunction constructor `logic.mkAnd`. -/
def mkAnd (l : List Term) : Term := l.foldr (fun a b => Term.app 2 a b) (Term.cst 1)

/-- Model of the external binary conjunction constructor. -/
def mkAnd2 (a b : Term) : Term := Term.app 2 a b

/-- `DirectedEdge {from, to, label, id}`; `from` is a Lean keyword, so the
field is called `fromS`. -/
structure DirectedEdge where
  fromS : Nat
  toS : Nat
  fla : Term
  id : Nat
deriving DecidableEq

/-- `DirectedHyperEdge {from : [Sym], to, label, id}`. -/
structure DirectedHyperEdge where
  fromS : List Nat
  toS : Nat
  fla : Term
  id : Nat
deriving DecidableEq

/-- The canonical predicate representation: for each symbol, the list of base
variable names; the state tuple is those bases at version 0, the next-state
tuple the same bases at version 1.  Stored as an association list so the
whole graph has decidable equality. -/
structure ChcDirectedGraph where
  edges : List DirectedEdge
  predicates : List (Nat × List Nat)
deriving DecidableEq

structure ChcDirectedHyperGraph where
  edges : List DirectedHyperEdge
  predicates : List (Nat × List Nat)
deriving DecidableEq

/-- The `ENTRY` sentinel symbol (the truth-constant symbol of the logic). -/
def entrySym : Nat := 0

def predBases (ps : List (Nat × List Nat)) (s : Nat) : List Nat :=
  ((ps.find? (fun p => p.fst == s)).map (fun p => p.snd)).getD []

/-- Arguments of the state version `P(x|0 ...)` of a predicate. -/
def stateArgs (ps : List (Nat × List Nat)) (s : Nat) : List (Nat × Nat) :=
  (predBases ps s).map (fun b => (b, 0))

/-- Arguments of the next-state version `P(x|1 ...)` of a predicate. -/
def nextArgs (ps : List (Nat × List Nat)) (s : Nat) : List (Nat × Nat) :=
  (predBases ps s).map (fun b => (b, 1))

/-- `ChcDirectedGraph::getVertices`: inserts the target of every edge and the
entry into a set. -/
def ChcDirectedGraph.getVertices (g : ChcDirectedGraph) : List Nat :=
  ((g.edges.map (fun e => e.toS)) ++ [entrySym]).dedup

/-- `ChcDirectedHyperGraph::getVertices`: inserts the target of every edge and
the entry into a set. -/
def ChcDirectedHyperGraph.getVertices (g : ChcDirectedHyperGraph) : List Nat :=
  ((g.edges.map (fun e => e.toS)) ++ [entrySym]).dedup

/-
`mergeMultiEdges` for both graph kinds groups edges into buckets by a key and
replaces each bucket of size at least two by its first member carrying the
disjunction of the bucket's labels.  The two C++ implementations are
line-for-line analogous, so the bucket loop is embedded once, generically in
the bucket key: a linear edge is keyed by `(from, to)`, a hyperedge only when
its source list is a singleton (`keyOf = none` for proper hyperedges, which
the C++ loop skips).
-/

def keyMatch {E K : Type} [DecidableEq K] (keyOf : E → Option K) (e f : E) : Bool :=
  decide (keyOf e ≠ none ∧ keyOf e = keyOf f)

def mergeRun {E K : Type} [DecidableEq K] (keyOf : E → Option K) (mergeE : E → List E → E) :
    Nat → List E → List E
  | 0, l => l
  | _ + 1, [] => []
  | fuel + 1, e :: rest =>
    match rest.filter (fun f => keyMatch keyOf e f) with
    | [] => e :: mergeRun keyOf mergeE fuel rest
    | d :: ds =>
      mergeE e (d :: ds) :: mergeRun keyOf mergeE fuel (rest.filter (fun f => !(keyMatch keyOf e f)))

/-- Whether some bucket has size at least two (the `changed` flag computed by
`ChcDirectedHyperGraph::mergeMultiEdges`). -/
def hasDup {E K : Type} [DecidableEq K] (keyOf : E → Option K) : List E → Bool
  | [] => false
  | e :: rest => rest.any (fun f => keyMatch keyOf e f) || hasDup keyOf rest

/-- The shape of one bucket after merging: kept as is when it has at most one
member, replaced by the merge of all members otherwise. -/
def mergedGroup {E : Type} (mergeE : E → List E → E) : List E → List E
  | [] => []
  | [e] => [e]
  | e :: d :: t => [mergeE e (d :: t)]

def keyOfL (e : DirectedEdge) : Option (Nat × Nat) := some (e.fromS, e.toS)

def keyOfH (e : DirectedHyperEdge) : Option (Nat × Nat) :=
  match e.fromS with
  | [s] => some (s, e.toS)
  | _ => none

def mergeEdgeL (e : DirectedEdge) (dups : List DirectedEdge) : DirectedEdge :=
  { e with fla := mkOr ((e :: dups).map (fun f => f.fla)) }

def mergeEdgeH (e : DirectedHyperEdge) (dups : List DirectedHyperEdge) : DirectedHyperEdge :=
  { e with fla := mkOr ((e :: dups).map (fun f => f.fla)) }

/-- `ChcDirectedGraph::mergeMultiEdges` (void in C++; returns the new graph). -/
def ChcDirectedGraph.mergeMultiEdges (g : ChcDirectedGraph) : ChcDirectedGraph :=
  { g with edges := mergeRun keyOfL mergeEdgeL g.edges.length g.edges }

/-- `ChcDirectedHyperGraph::mergeMultiEdges`; also returns the `changed` flag. -/
def ChcDirectedHyperGraph.mergeMultiEdges (g : ChcDirectedHyperGraph) :
    ChcDirectedHyperGraph × Bool :=
  ({ g with edges := mergeRun keyOfH mergeEdgeH g.edges.length g.edges },
   hasDup keyOfH g.edges)

/-
`reverse` of a linear graph.
-/

/-- The simultaneous substitution built by `ChcDirectedGraph::reverseEdge`:
state variables of the old source become next-state, next-state variables of
the old target become state. -/
def revSubst (ps : List (Nat × List Nat)) (sfrom sto : Nat) : Nat × Nat → Nat × Nat :=
  fun p =>
    if p.2 = 0 ∧ p.1 ∈ predBases ps sfrom then (p.1, 1)
    else if p.2 = 1 ∧ p.1 ∈ predBases ps sto then (p.1, 0)
    else p

def ChcDirectedGraph.reverseEdge (g : ChcDirectedGraph) (e : DirectedEdge) : DirectedEdge :=
  { fromS := e.toS, toS := e.fromS,
    fla := substTerm (revSubst g.predicates e.fromS e.toS) e.fla, id := e.id }

/-- `ChcDirectedGraph::reverse`: same vertices and canonical representation,
each edge reversed.  (The C++ calls to `swapTrueFalse` discard their results
and so have no effect.) -/
def ChcDirectedGraph.reverse (g : ChcDirectedGraph) : ChcDirectedGraph :=
  { g with edges := g.edges.map (fun e => g.reverseEdge e) }

/-- An edge label only mentions version-0 variables of its source and
version-1 variables of its target (the invariant the canonical predicate
representation maintains for edge labels). -/
def ChcDirectedGraph.wellFormedLabels (g : ChcDirectedGraph) : Prop :=
  ∀ e ∈ g.edges, ∀ p ∈ e.fla.vars,
    (p.2 = 0 ∧ p.1 ∈ predBases g.predicates e.fromS) ∨
    (p.2 = 1 ∧ p.1 ∈ predBases g.predicates e.toS)

/-
`contractVertex` for the linear graph.
-/

/-- The substitution mapping the next-state tuple of a symbol to its state
tuple (`mapFromPredicate(getNextStateVersion(s), getStateVersion(s))`). -/
def nextToStateSubst (ps : List (Nat × List Nat)) (s : Nat) : Nat × Nat → Nat × Nat :=
  fun p => if p.2 = 1 ∧ p.1 ∈ predBases ps s then (p.1, 0) else p

/-- `ChcDirectedGraph::mergeLabels`.  `qe` models the external
`TrivialQuantifierElimination::tryEliminateVars` collaborator (first argument:
the variables to eliminate). -/
def ChcDirectedGraph.mergeLabels (qe : List (Nat × Nat) → Term → Term)
    (g : ChcDirectedGraph) (incoming outgoing : DirectedEdge) : Term :=
  let updatedIncomingLabel := substTerm (nextToStateSubst g.predicates incoming.toS) incoming.fla
  let combinedLabel := mkAnd2 updatedIncomingLabel outgoing.fla
  qe (stateArgs g.predicates outgoing.fromS) combinedLabel

/-- The edge created by `ChcDirectedGraph::mergeEdges` for one
incoming/outgoing pair (fresh ids are irrelevant here and set to 0). -/
def ChcDirectedGraph.mergeEdgesPair (qe : List (Nat × Nat) → Term → Term)
    (g : ChcDirectedGraph) (incoming outgoing : DirectedEdge) : DirectedEdge :=
  { fromS := incoming.fromS, toS := outgoing.toS,
    fla := g.mergeLabels qe incoming outgoing, id := 0 }

/-- `ChcDirectedGraph::contractVertex`.  The C++ function asserts, for every
incident edge it processes, that the edge is not a self-loop; the assertion
failure is modelled as `none`.  On success every incoming/outgoing pair is
merged and the vertex is deleted with all edges touching it. -/
def ChcDirectedGraph.contractVertex (qe : List (Nat × Nat) → Term → Term)
    (g : ChcDirectedGraph) (v : Nat) : Option ChcDirectedGraph :=
  let incomingEdges := g.edges.filter (fun e => e.toS == v)
  let outgoingEdges := g.edges.filter (fun e => e.fromS == v)
  if incomingEdges.any (fun e => e.fromS == e.toS) ||
      outgoingEdges.any (fun e => e.fromS == e.toS) then none
  else
    let merges := incomingEdges.flatMap (fun i =>
      outgoingEdges.map (fun o => g.mergeEdgesPair qe i o))
    some { g with
      edges := (g.edges ++ merges).filter (fun e => !(e.fromS == v || e.toS == v)) }

/-
`contractVertex` for the hypergraph, including its exception behaviour: the
error is raised while merged edges may already have been added, and the
mutated edge map is what the caller observes.
-/

def contractErrorMsg : String := "Unable to contract vertex with hyperedge!"

/-- `ChcDirectedHyperGraph::mergeLabels` on a two-edge chain. -/
def ChcDirectedHyperGraph.mergeLabels (qe : List (Nat × Nat) → Term → Term)
    (g : ChcDirectedHyperGraph) (i o : DirectedHyperEdge) : Term :=
  let combinedLabel := mkAnd [i.fla, o.fla]
  let updatedLabel := substTerm (nextToStateSubst g.predicates i.toS) combinedLabel
  qe (stateArgs g.predicates (i.fromS.headD 0) ++ nextArgs g.predicates o.toS) updatedLabel

/-- The edge created by `ChcDirectedHyperGraph::mergeEdges` on the chain
`{incoming, outgoing}`. -/
def ChcDirectedHyperGraph.mergeEdgesPair (qe : List (Nat × Nat) → Term → Term)
    (g : ChcDirectedHyperGraph) (i o : DirectedHyperEdge) : DirectedHyperEdge :=
  { fromS := [i.fromS.headD 0], toS := o.toS, fla := g.mergeLabels qe i o, id := 0 }

/-- Inner loop of `ChcDirectedHyperGraph::contractVertex` over the outgoing
edges for one incoming edge: returns the merged edges added so far and the
error, if one was thrown. -/
def contractInnerH (qe : List (Nat × Nat) → Term → Term) (g : ChcDirectedHyperGraph)
    (i : DirectedHyperEdge) : List DirectedHyperEdge → List DirectedHyperEdge × Option String
  | [] => ([], none)
  | o :: orest =>
    if 1 < o.fromS.length then ([], some contractErrorMsg)
    else
      let r := contractInnerH qe g i orest
      (g.mergeEdgesPair qe i o :: r.1, r.2)

/-- Outer loop of `ChcDirectedHyperGraph::contractVertex` over the incoming
edges. -/
def contractOuterH (qe : List (Nat × Nat) → Term → Term) (g : ChcDirectedHyperGraph) :
    List DirectedHyperEdge → List DirectedHyperEdge → List DirectedHyperEdge × Option String
  | [], _ => ([], none)
  | i :: irest, out =>
    if 1 < i.fromS.length then ([], some contractErrorMsg)
    else
      let r1 := contractInnerH qe g i out
      match r1.2 with
      | some e => (r1.1, some e)
      | none =>
        let r2 := contractOuterH qe g irest out
        (r1.1 ++ r2.1, r2.2)

def incidentIncomingH (es : List DirectedHyperEdge) (v : Nat) : List DirectedHyperEdge :=
  es.filter (fun e => e.toS == v)

def incidentOutgoingH (es : List DirectedHyperEdge) (v : Nat) : List DirectedHyperEdge :=
  es.filter (fun e => e.fromS.contains v)

/-- `ChcDirectedHyperGraph::contractVertex`.  The second component is the
exception (`logic_error`) if one is thrown; the first component is the edge
map as the caller observes it afterwards: on an exception, the merged edges
already created stay in the graph and nothing is deleted. -/
def ChcDirectedHyperGraph.contractVertex (qe : List (Nat × Nat) → Term → Term)
    (g : ChcDirectedHyperGraph) (v : Nat) : ChcDirectedHyperGraph × Option String :=
  let inc := incidentIncomingH g.edges v
  let out := incidentOutgoingH g.edges v
  let r := contractOuterH qe g inc out
  match r.2 with
  | some e => ({ g with edges := g.edges ++ r.1 }, some e)
  | none =>
    ({ g with edges := (g.edges ++ r.1).filter (fun e => !(e.toS == v || e.fromS.contains v)) },
     none)

/-
The k-induction engine (`Kind::solveTransitionSystem`).  The transition
system's three formulas and their time shifts are embedded syntactically as
`KFla`; the external SMT solver is a parameter `check` from assertion lists to
`{s_True, s_False, s_Undef}`.  `KSem` interprets an assertion over a trace of
states, exactly matching what `sendFlaThroughTime` produces: `ftr k` is the
transition relation between times `k` and `k+1`, `fbackTr k` the reversed
transition relation (version-0 and version-1 variables swapped) between those
times, and so on.
-/

inductive SolverRes where
  | sTrue : SolverRes
  | sFalse : SolverRes
  | sUndef : SolverRes
deriving DecidableEq

inductive KFla where
  | finit : KFla
  | ftr : Nat → KFla
  | fqy : Nat → KFla
  | fnegQy : Nat → KFla
  | fnegInit : Nat → KFla
  | fbackTr : Nat → KFla
deriving DecidableEq

inductive KResult where
  | safe : KResult
  | foundBug : Nat → KResult
  | unknown : KResult
deriving DecidableEq

def KSem {S : Type} (initP : S → Prop) (trP : S → S → Prop) (qyP : S → Prop)
    (tr : Nat → S) : KFla → Prop
  | .finit => initP (tr 0)
  | .ftr k => trP (tr k) (tr (k + 1))
  | .fqy k => qyP (tr k)
  | .fnegQy k => ¬ qyP (tr k)
  | .fnegInit k => ¬ initP (tr k)
  | .fbackTr k => trP (tr (k + 1)) (tr k)

/-- Satisfiability of a list of assertions over traces `Nat → S`. -/
def KSat (S : Type) (initP : S → Prop) (trP : S → S → Prop) (qyP : S → Prop)
    (fs : List KFla) : Prop :=
  ∃ tr : Nat → S, ∀ f ∈ fs, KSem initP trP qyP tr f

/-- The `for (k = 0; k < maxK; ++k)` loop of `Kind::solveTransitionSystem`.
`base`, `fwd`, `bwd` are the assertion lists of the three solver contexts;
the `push`ed query of the base context is passed inside the `check` call and
popped by not keeping it. -/
def kindLoop (check : List KFla → SolverRes) :
    Nat → Nat → List KFla → List KFla → List KFla → KResult
  | 0, _, _, _, _ => KResult.unknown
  | fuel + 1, k, base, fwd, bwd =>
    if check (base ++ [KFla.fqy k]) = SolverRes.sTrue then KResult.foundBug k
    else
      if check fwd = SolverRes.sFalse then KResult.safe
      else
        if check bwd = SolverRes.sFalse then KResult.safe
        else
          kindLoop check fuel (k + 1) (base ++ [KFla.ftr k])
            (fwd ++ [KFla.fbackTr k, KFla.fnegQy (k + 1)])
            (bwd ++ [KFla.ftr k, KFla.fnegInit (k + 1)])

/-- `Kind::solveTransitionSystem`: base and backward contexts start with
`init`, the forward context with `query`; an unsatisfiable initial base check
returns SAFE before the loop. -/
def kindSolveTransitionSystem (check : List KFla → SolverRes) (maxK : Nat) : KResult :=
  if check [KFla.finit] = SolverRes.sFalse then KResult.safe
  else kindLoop check maxK 0 [KFla.finit] [KFla.fqy 0] [KFla.finit]

/-
`AcceleratedBmcBase::solve(ChcDirectedHyperGraph&)` throws unconditionally.
-/

def notSupportedMsg : String := "Not supported yet!"

def AcceleratedBmcBase.solveHyperGraph (g : ChcDirectedHyperGraph) : Except String KResult :=
  Except.error notSupportedMsg

/-
Concrete instances used to evaluate the definitions on explicit inputs.
-/

/-- Identity instantiation of the external quantifier-elimination parameter. -/
def qeId : List (Nat × Nat) → Term → Term := fun _ t => t

def gC1 : ChcDirectedGraph := ⟨[⟨5, 7, Term.cst 0, 0⟩], []⟩

def eC2a : DirectedHyperEdge := ⟨[2, 3], 4, Term.cst 5, 0⟩

def eC2b : DirectedHyperEdge := ⟨[2, 3], 4, Term.cst 6, 1⟩

def gC2 : ChcDirectedHyperGraph := ⟨[eC2a, eC2b], []⟩

def gC3 : ChcDirectedGraph :=
  ⟨[⟨2, 3, Term.app 5 (Term.var 10 0) (Term.var 11 1), 0⟩], [(2, [10]), (3, [11])]⟩

def gC6 : ChcDirectedHyperGraph :=
  ⟨[⟨[2], 5, Term.cst 7, 0⟩, ⟨[5], 3, Term.cst 8, 1⟩, ⟨[6, 7], 5, Term.cst 9, 2⟩], []⟩

def gC10 : ChcDirectedGraph :=
  ⟨[⟨0, 5, Term.cst 1, 0⟩, ⟨5, 1, Term.cst 2, 1⟩], []⟩

/-- A syntactic check over `KFla` assertion lists: negated formulas present. -/
def isNegKF : KFla → Bool
  | .fnegQy _ => true
  | .fnegInit _ => true
  | _ => false

/-- A sound concrete solver for the all-true transition system over `Unit`:
it answers `s_True` exactly on lists without negated formulas. -/
def demoCheck (fs : List KFla) : SolverRes :=
  if fs.any isNegKF then SolverRes.sUndef else SolverRes.sTrue

/-
Helper lemmas.
-/

theorem list_map_id_on {α : Type} (f : α → α) :
    ∀ l : List α, (∀ a ∈ l, f a = a) → l.map f = l := by
  intro l h
  induction l with
  | nil => rfl
  | cons a t ih =>
    simp only [List.map_cons, h a (by simp)]
    rw [ih (fun b hb => h b (by simp [hb]))]

theorem substTerm_substTerm (s1 s2 : Nat × Nat → Nat × Nat) (t : Term) :
    substTerm s2 (substTerm s1 t) = substTerm (fun p => s2 (s1 p)) t := by
  induction t with
  | var b v => simp [substTerm]
  | cst c => rfl
  | app f l r ihl ihr => simp [substTerm, ihl, ihr]

theorem substTerm_eq_self (s : Nat × Nat → Nat × Nat) (t : Term)
    (h : ∀ p ∈ t.vars, s p = p) : substTerm s t = t := by
  induction t with
  | var b v =>
    have hv := h (b, v) (by simp [Term.vars])
    simp [substTerm, hv]
  | cst c => rfl
  | app f l r ihl ihr =>
    have hl := ihl (fun p hp => h p (by simp [Term.vars, hp]))
    have hr := ihr (fun p hp => h p (by simp [Term.vars, hp]))
    simp [substTerm, hl, hr]

theorem keyMatch_true_iff {E K : Type} [DecidableEq K] (keyOf : E → Option K) (e f : E) :
    keyMatch keyOf e f = true ↔ (keyOf e ≠ none ∧ keyOf e = keyOf f) := by
  simp [keyMatch]

theorem mergeRun_mem {E K : Type} [DecidableEq K] (keyOf : E → Option K)
    (mergeE : E → List E → E) (hm : ∀ e d, keyOf (mergeE e d) = keyOf e) :
    ∀ (fuel : Nat) (l : List E), ∀ f ∈ mergeRun keyOf mergeE fuel l, ∃ e ∈ l, keyOf f = keyOf e := by
  intro fuel
  induction fuel with
  | zero =>
    intro l f hf
    exact ⟨f, by simpa [mergeRun] using hf, rfl⟩
  | succ n ih =>
    intro l f hf
    cases l with
    | nil => simp [mergeRun] at hf
    | cons e rest =>
      cases hfil : rest.filter (fun x => keyMatch keyOf e x) with
      | nil =>
        simp only [mergeRun, hfil, List.mem_cons] at hf
        rcases hf with rfl | hf
        · exact ⟨f, by simp, rfl⟩
        · rcases ih rest f hf with ⟨e2, he2, hk⟩
          exact ⟨e2, by simp [he2], hk⟩
      | cons d ds =>
        simp only [mergeRun, hfil, List.mem_cons] at hf
        rcases hf with rfl | hf
        · exact ⟨e, by simp, hm e (d :: ds)⟩
        · rcases ih _ f hf with ⟨e2, he2, hk⟩
          exact ⟨e2, by simp [(List.mem_filter.1 he2).1], hk⟩

theorem mergeRun_pairwise {E K : Type} [DecidableEq K] (keyOf : E → Option K)
    (mergeE : E → List E → E) (hm : ∀ e d, keyOf (mergeE e d) = keyOf e) :
    ∀ (fuel : Nat) (l : List E), l.length ≤ fuel →
      (mergeRun keyOf mergeE fuel l).Pairwise (fun a b => keyMatch keyOf a b = false) := by
  intro fuel
  induction fuel with
  | zero =>
    intro l hl
    have : l = [] := List.length_eq_zero.1 (Nat.le_zero.1 hl)
    simp [this, mergeRun]
  | succ n ih =>
    intro l hl
    cases l with
    | nil => simp [mergeRun]
    | cons e rest =>
      have hlen : rest.length ≤ n := Nat.le_of_succ_le_succ (by simpa using hl)
      cases hfil : rest.filter (fun x => keyMatch keyOf e x) with
      | nil =>
        simp only [mergeRun, hfil]
        refine List.pairwise_cons.2 ⟨?_, ih rest hlen⟩
        intro f hf
        rcases mergeRun_mem keyOf mergeE hm n rest f hf with ⟨e2, he2, hk⟩
        by_contra hc
        rw [Bool.not_eq_false, keyMatch_true_iff] at hc
        have : keyMatch keyOf e e2 = true := by
          rw [keyMatch_true_iff]
          exact ⟨hc.1, hc.2.trans hk⟩
        have : e2 ∈ rest.filter (fun x => keyMatch keyOf e x) := List.mem_filter.2 ⟨he2, this⟩
        simp [hfil] at this
      | cons d ds =>
        simp only [mergeRun, hfil]
        have hlen2 : (rest.filter (fun x => !(keyMatch keyOf e x))).length ≤ n :=
          le_trans (List.length_filter_le _ _) hlen
        refine List.pairwise_cons.2 ⟨?_, ih _ hlen2⟩
        intro f hf
        rcases mergeRun_mem keyOf mergeE hm n _ f hf with ⟨e2, he2, hk⟩
        by_contra hc
        rw [Bool.not_eq_false, keyMatch_true_iff, hm] at hc
        have hmatch : keyMatch keyOf e e2 = true := by
          rw [keyMatch_true_iff]
          exact ⟨hc.1, hc.2.trans hk⟩
        have := (List.mem_filter.1 he2).2
        simp [hmatch] at this


theorem keyMatch_eq_keyed {E K : Type} [DecidableEq K] (keyOf : E → Option K) (e f : E)
    (k : K) (hk : keyOf e = some k) : keyMatch keyOf e f = (decide (keyOf f = some k)) := by
  by_cases hf : keyOf f = some k
  · have h1 : (decide (keyOf f = some k)) = true := by simpa using hf
    rw [h1]
    exact (keyMatch_true_iff keyOf e f).2 ⟨by simp [hk], by rw [hk, hf]⟩
  · have h1 : (decide (keyOf f = some k)) = false := by simpa using hf
    rw [h1, Bool.eq_false_iff]
    intro hc
    rcases (keyMatch_true_iff keyOf e f).1 hc with ⟨-, h2⟩
    rw [hk] at h2
    exact hf h2.symm

theorem keyMatch_false_of_ne {E K : Type} [DecidableEq K] (keyOf : E → Option K) (e f : E)
    (k : K) (hk : keyOf e ≠ some k) (hf : keyOf f = some k) : keyMatch keyOf e f = false := by
  rw [keyMatch, decide_eq_false_iff_not]
  rintro ⟨-, hcontra⟩
  exact hk (hcontra.trans hf)

theorem mergeRun_filter_key {E K : Type} [DecidableEq K] (keyOf : E → Option K)
    (mergeE : E → List E → E) (hm : ∀ e d, keyOf (mergeE e d) = keyOf e) :
    ∀ (fuel : Nat) (l : List E), l.length ≤ fuel → ∀ k : K,
      (mergeRun keyOf mergeE fuel l).filter (fun f => decide (keyOf f = some k)) =
        mergedGroup mergeE (l.filter (fun f => decide (keyOf f = some k))) := by
  intro fuel
  induction fuel with
  | zero =>
    intro l hl k
    have : l = [] := List.length_eq_zero.1 (Nat.le_zero.1 hl)
    simp [this, mergeRun, mergedGroup]
  | succ n ih =>
    intro l hl k
    cases l with
    | nil => simp [mergeRun, mergedGroup]
    | cons e rest =>
      have hlen : rest.length ≤ n := Nat.le_of_succ_le_succ (by simpa using hl)
      cases hfil : rest.filter (fun x => keyMatch keyOf e x) with
      | nil =>
        by_cases hk : keyOf e = some k
        · have h1 : (decide (keyOf e = some k)) = true := by simpa using hk
          have hrest : rest.filter (fun f => decide (keyOf f = some k)) = [] := by
            rw [show (fun f => decide (keyOf f = some k)) = (fun x => keyMatch keyOf e x) from
              funext (fun f => (keyMatch_eq_keyed keyOf e f k hk).symm), hfil]
          simp only [mergeRun, hfil, List.filter_cons, h1, if_true, ih rest hlen k, hrest]
          simp [mergedGroup, hrest]
        · have h1 : (decide (keyOf e = some k)) = false := by simpa using hk
          simp only [mergeRun, hfil, List.filter_cons, h1, ih rest hlen k]
          simp
      | cons d ds =>
        have hlen2 : (rest.filter (fun x => !(keyMatch keyOf e x))).length ≤ n :=
          le_trans (List.length_filter_le _ _) hlen
        by_cases hk : keyOf e = some k
        · have h1 : (decide (keyOf e = some k)) = true := by simpa using hk
          have hhead : (decide (keyOf (mergeE e (d :: ds)) = some k)) = true := by
            rw [hm]
            exact h1
          have hrest2 : (rest.filter (fun x => !(keyMatch keyOf e x))).filter
              (fun f => decide (keyOf f = some k)) = [] := by
            rw [List.filter_eq_nil_iff]
            intro f hf hc
            have hmatch : keyMatch keyOf e f = true := by
              rw [keyMatch_eq_keyed keyOf e f k hk]
              simpa using hc
            have := (List.mem_filter.1 hf).2
            simp [hmatch] at this
          have hlhs : (mergeRun keyOf mergeE (n + 1) (e :: rest)).filter
              (fun f => decide (keyOf f = some k)) = [mergeE e (d :: ds)] := by
            simp only [mergeRun, hfil, List.filter_cons, hhead, if_true, ih _ hlen2 k, hrest2]
            simp [mergedGroup]
          have hrhs : (e :: rest).filter (fun f => decide (keyOf f = some k)) = e :: d :: ds := by
            rw [List.filter_cons]
            rw [show (fun f => decide (keyOf f = some k)) = (fun x => keyMatch keyOf e x) from
              funext (fun f => (keyMatch_eq_keyed keyOf e f k hk).symm), hfil]
            simp [h1, keyMatch_eq_keyed keyOf e e k hk]
          rw [hlhs, hrhs]
          simp [mergedGroup]
        · have h1 : (decide (keyOf e = some k)) = false := by simpa using hk
          have hhead : (decide (keyOf (mergeE e (d :: ds)) = some k)) = false := by
            rw [hm]
            exact h1
          have hsame : (rest.filter (fun x => !(keyMatch keyOf e x))).filter
              (fun f => decide (keyOf f = some k)) = rest.filter (fun f => decide (keyOf f = some k)) := by
            rw [List.filter_filter]
            apply List.filter_congr
            intro f _
            by_cases hf : keyOf f = some k
            · have hb : (decide (keyOf f = some k)) = true := by simpa using hf
              simp [hb, keyMatch_false_of_ne keyOf e f k hk hf]
            · have hb : (decide (keyOf f = some k)) = false := by simpa using hf
              simp [hb]
          simp only [mergeRun, hfil, List.filter_cons, hhead, h1, ih _ hlen2 k, hsame]
          simp

theorem mergeRun_filter_none {E K : Type} [DecidableEq K] (keyOf : E → Option K)
    (mergeE : E → List E → E) (hm : ∀ e d, keyOf (mergeE e d) = keyOf e) :
    ∀ (fuel : Nat) (l : List E), l.length ≤ fuel →
      (mergeRun keyOf mergeE fuel l).filter (fun f => (keyOf f).isNone) =
        l.filter (fun f => (keyOf f).isNone) := by
  intro fuel
  induction fuel with
  | zero =>
    intro l hl
    have : l = [] := List.length_eq_zero.1 (Nat.le_zero.1 hl)
    simp [this, mergeRun]
  | succ n ih =>
    intro l hl
    cases l with
    | nil => simp [mergeRun]
    | cons e rest =>
      have hlen : rest.length ≤ n := Nat.le_of_succ_le_succ (by simpa using hl)
      cases hfil : rest.filter (fun x => keyMatch keyOf e x) with
      | nil =>
        simp only [mergeRun, hfil, List.filter_cons, ih rest hlen]
      | cons d ds =>
        have hlen2 : (rest.filter (fun x => !(keyMatch keyOf e x))).length ≤ n :=
          le_trans (List.length_filter_le _ _) hlen
        have hkey : keyOf e ≠ none := by
          have hd : keyMatch keyOf e d = true := by
            have : d ∈ rest.filter (fun x => keyMatch keyOf e x) := by simp [hfil]
            exact (List.mem_filter.1 this).2
          exact ((keyMatch_true_iff keyOf e d).1 hd).1
        have hne : (keyOf e).isNone = false := by
          cases hko : keyOf e with
          | none => exact absurd hko hkey
          | some a => rfl
        have hhead : (keyOf (mergeE e (d :: ds))).isNone = false := by rw [hm]; exact hne
        have hsame : (rest.filter (fun x => !(keyMatch keyOf e x))).filter
            (fun f => (keyOf f).isNone) = rest.filter (fun f => (keyOf f).isNone) := by
          rw [List.filter_filter]
          apply List.filter_congr
          intro f _
          cases hkf : keyOf f with
          | none =>
            have : keyMatch keyOf e f = false := by
              rw [keyMatch, decide_eq_false_iff_not]
              rintro ⟨h1, h2⟩
              exact h1 (h2.trans hkf)
            simp [this]
          | some a => simp
        simp only [mergeRun, hfil, List.filter_cons, hhead, hne, ih _ hlen2, hsame]
        simp

theorem mergeRun_eq_self {E K : Type} [DecidableEq K] (keyOf : E → Option K)
    (mergeE : E → List E → E) :
    ∀ (fuel : Nat) (l : List E), l.length ≤ fuel →
      l.Pairwise (fun a b => keyMatch keyOf a b = false) →
      mergeRun keyOf mergeE fuel l = l := by
  intro fuel
  induction fuel with
  | zero =>
    intro l hl _
    have : l = [] := List.length_eq_zero.1 (Nat.le_zero.1 hl)
    simp [this, mergeRun]
  | succ n ih =>
    intro l hl hp
    cases l with
    | nil => simp [mergeRun]
    | cons e rest =>
      have hlen : rest.length ≤ n := Nat.le_of_succ_le_succ (by simpa using hl)
      rcases List.pairwise_cons.1 hp with ⟨hhead, htail⟩
      have hfil : rest.filter (fun x => keyMatch keyOf e x) = [] := by
        rw [List.filter_eq_nil_iff]
        intro f hf
        simp [hhead f hf]
      simp only [mergeRun, hfil]
      rw [ih rest hlen htail]

theorem hasDup_false_iff {E K : Type} [DecidableEq K] (keyOf : E → Option K) :
    ∀ l : List E, hasDup keyOf l = false ↔
      l.Pairwise (fun a b => keyMatch keyOf a b = false) := by
  intro l
  induction l with
  | nil => simp [hasDup]
  | cons e rest ih =>
    simp only [hasDup, Bool.or_eq_false_iff, List.pairwise_cons, ih, List.any_eq_false]
    constructor
    · rintro ⟨h1, h2⟩
      exact ⟨fun b hb => by simpa using h1 b hb, h2⟩
    · rintro ⟨h1, h2⟩
      exact ⟨fun b hb => by simp [h1 b hb], h2⟩

theorem hasDup_true_iff {E K : Type} [DecidableEq K] (keyOf : E → Option K) :
    ∀ l : List E, hasDup keyOf l = true ↔
      ∃ a b, List.Sublist [a, b] l ∧ keyMatch keyOf a b = true := by
  intro l
  induction l with
  | nil =>
    simp only [hasDup]
    constructor
    · intro h
      exact absurd h (by simp)
    · rintro ⟨a, b, hsub, -⟩
      cases hsub
  | cons e rest ih =>
    simp only [hasDup, Bool.or_eq_true, List.any_eq_true, ih]
    constructor
    · rintro (⟨f, hf, hk⟩ | ⟨a, b, hsub, hk⟩)
      · exact ⟨e, f, List.Sublist.cons₂ e (List.singleton_sublist.2 hf), hk⟩
      · exact ⟨a, b, hsub.cons e, hk⟩
    · rintro ⟨a, b, hsub, hk⟩
      cases hsub with
      | cons _ h => exact Or.inr ⟨a, b, h, hk⟩
      | cons₂ _ h => exact Or.inl ⟨b, List.singleton_sublist.1 h, hk⟩

theorem keyOfL_mergeEdgeL (e : DirectedEdge) (d : List DirectedEdge) :
    keyOfL (mergeEdgeL e d) = keyOfL e := rfl

theorem keyOfH_mergeEdgeH (e : DirectedHyperEdge) (d : List DirectedHyperEdge) :
    keyOfH (mergeEdgeH e d) = keyOfH e := rfl

theorem keyMatchL_true_iff (e f : DirectedEdge) :
    keyMatch keyOfL e f = true ↔ (e.fromS = f.fromS ∧ e.toS = f.toS) := by
  rw [keyMatch_true_iff]
  simp [keyOfL, Prod.ext_iff]

theorem keyMatchH_true_iff (e f : DirectedHyperEdge) :
    keyMatch keyOfH e f = true ↔
      ∃ s, e.fromS = [s] ∧ f.fromS = [s] ∧ e.toS = f.toS := by
  rw [keyMatch_true_iff]
  constructor
  · rintro ⟨hne, heq⟩
    rcases he : e.fromS with _ | ⟨s, tl⟩
    · rw [keyOfH, he] at hne
      simp at hne
    · cases tl with
      | nil =>
        have hke : keyOfH e = some (s, e.toS) := by rw [keyOfH, he]
        rcases hf : f.fromS with _ | ⟨u, tl2⟩
        · rw [hke, keyOfH, hf] at heq
          simp at heq
        · cases tl2 with
          | nil =>
            have hkf : keyOfH f = some (u, f.toS) := by rw [keyOfH, hf]
            rw [hke, hkf, Option.some_inj, Prod.ext_iff] at heq
            rcases heq with ⟨h1, h2⟩
            have h1a : s = u := by simpa using h1
            have h2a : e.toS = f.toS := by simpa using h2
            exact ⟨s, rfl, by rw [h1a], h2a⟩
          | cons u2 tl3 =>
            rw [hke, keyOfH, hf] at heq
            simp at heq
      | cons s2 tl2 =>
        rw [keyOfH, he] at hne
        simp at hne
  · rintro ⟨s, he, hf, ht⟩
    have hke : keyOfH e = some (s, e.toS) := by rw [keyOfH, he]
    have hkf : keyOfH f = some (s, f.toS) := by rw [keyOfH, hf]
    rw [hke, hkf, ht]
    simp

/-
Claim theorems.
-/

/-- Claim C1, counterexample: the code's `getVertices` collects only edge
targets (plus `ENTRY`), so the symbol 5, which occurs only as the source of
the single edge of `gC1`, is not returned even though the claim says every
source symbol is. -/
theorem getVertices_cex : (∃ e ∈ gC1.edges, e.fromS = 5) ∧ 5 ∉ gC1.getVertices := by
  decide

/-- Claim C1, amended: for every linear graph and every hypergraph,
`getVertices` returns exactly the symbols that appear as the target of some
edge, together with `ENTRY`; a symbol occurring only as a source of an edge
is not included. -/
theorem getVertices_members :
    (∀ (g : ChcDirectedGraph) (x : Nat),
      x ∈ g.getVertices ↔ (∃ e ∈ g.edges, e.toS = x) ∨ x = entrySym) ∧
    (∀ (g : ChcDirectedHyperGraph) (x : Nat),
      x ∈ g.getVertices ↔ (∃ e ∈ g.edges, e.toS = x) ∨ x = entrySym) := by
  constructor
  · intro g x
    simp [ChcDirectedGraph.getVertices, List.mem_dedup]
  · intro g x
    simp [ChcDirectedHyperGraph.getVertices, List.mem_dedup]

/-- Claim C2, counterexample: the hypergraph `gC2` has two distinct parallel
hyperedges `[2,3] → 4`; `mergeMultiEdges` skips edges whose source list is not
a singleton, so both survive one call and still share the same `(from, to)`
pair, contradicting the claim for hypergraphs. -/
theorem mergeMultiEdges_cex :
    (gC2.mergeMultiEdges).1 = gC2 ∧ (gC2.mergeMultiEdges).2 = false ∧
    eC2a ∈ (gC2.mergeMultiEdges).1.edges ∧ eC2b ∈ (gC2.mergeMultiEdges).1.edges ∧
    eC2a ≠ eC2b ∧ eC2a.fromS = eC2b.fromS ∧ eC2a.toS = eC2b.toS := by
  decide

/-- Claim C2, amended: after one call to `mergeMultiEdges`, no two distinct
single-source edges share the same `(from, to)` pair (for linear graphs this
is every edge); each group of two or more parallel single-source edges keyed
by `(s, t)` has been replaced by a single edge whose label is the disjunction
of the group's labels (`mergedGroup`); edges with more than one source are
not grouped and are left untouched. -/
theorem mergeMultiEdges_shape :
    (∀ g : ChcDirectedGraph,
      (g.mergeMultiEdges).edges.Pairwise (fun a b => ¬(a.fromS = b.fromS ∧ a.toS = b.toS))) ∧
    (∀ g : ChcDirectedHyperGraph,
      (g.mergeMultiEdges).1.edges.Pairwise
        (fun a b => ¬ ∃ s, a.fromS = [s] ∧ b.fromS = [s] ∧ a.toS = b.toS)) ∧
    (∀ (g : ChcDirectedGraph) (s t : Nat),
      (g.mergeMultiEdges).edges.filter (fun e => decide (keyOfL e = some (s, t))) =
        mergedGroup mergeEdgeL (g.edges.filter (fun e => decide (keyOfL e = some (s, t))))) ∧
    (∀ (g : ChcDirectedHyperGraph) (s t : Nat),
      (g.mergeMultiEdges).1.edges.filter (fun e => decide (keyOfH e = some (s, t))) =
        mergedGroup mergeEdgeH (g.edges.filter (fun e => decide (keyOfH e = some (s, t))))) ∧
    (∀ g : ChcDirectedHyperGraph,
      (g.mergeMultiEdges).1.edges.filter (fun e => (keyOfH e).isNone) =
        g.edges.filter (fun e => (keyOfH e).isNone)) := by
  refine ⟨?_, ?_, ?_, ?_, ?_⟩
  · intro g
    have hp := mergeRun_pairwise keyOfL mergeEdgeL keyOfL_mergeEdgeL g.edges.length g.edges le_rfl
    exact hp.imp (fun h hc => by simp [(keyMatchL_true_iff _ _).2 hc] at h)
  · intro g
    have hp := mergeRun_pairwise keyOfH mergeEdgeH keyOfH_mergeEdgeH g.edges.length g.edges le_rfl
    refine hp.imp (fun h hc => ?_)
    rcases hc with ⟨s, h1, h2, h3⟩
    simp [(keyMatchH_true_iff _ _).2 ⟨s, h1, h2, h3⟩] at h
  · intro g s t
    exact mergeRun_filter_key keyOfL mergeEdgeL keyOfL_mergeEdgeL g.edges.length g.edges le_rfl (s, t)
  · intro g s t
    exact mergeRun_filter_key keyOfH mergeEdgeH keyOfH_mergeEdgeH g.edges.length g.edges le_rfl (s, t)
  · intro g
    exact mergeRun_filter_none keyOfH mergeEdgeH keyOfH_mergeEdgeH g.edges.length g.edges le_rfl

/-- A linear graph whose edges already have pairwise distinct keys is left
unchanged by `mergeMultiEdges`. -/
theorem mergeMultiEdgesL_of_pairwise (g : ChcDirectedGraph)
    (hp : g.edges.Pairwise (fun a b => keyMatch keyOfL a b = false)) :
    g.mergeMultiEdges = g := by
  have h := mergeRun_eq_self keyOfL mergeEdgeL g.edges.length g.edges le_rfl hp
  unfold ChcDirectedGraph.mergeMultiEdges
  rw [h]

/-- A hypergraph whose edges already have pairwise distinct keys is left
unchanged by `mergeMultiEdges`, which reports that nothing was merged. -/
theorem mergeMultiEdgesH_of_pairwise (g : ChcDirectedHyperGraph)
    (hp : g.edges.Pairwise (fun a b => keyMatch keyOfH a b = false)) :
    g.mergeMultiEdges = (g, false) := by
  have h := mergeRun_eq_self keyOfH mergeEdgeH g.edges.length g.edges le_rfl hp
  have h2 := (hasDup_false_iff keyOfH g.edges).2 hp
  unfold ChcDirectedHyperGraph.mergeMultiEdges
  rw [h, h2]

/-- Claim C8 (confirmed): `mergeMultiEdges` is idempotent for both graph
kinds: a second application returns the same graph, and (for hypergraphs)
reports that no merging happened. -/
theorem mergeMultiEdges_idem :
    (∀ g : ChcDirectedGraph, g.mergeMultiEdges.mergeMultiEdges = g.mergeMultiEdges) ∧
    (∀ g : ChcDirectedHyperGraph,
      ((g.mergeMultiEdges).1).mergeMultiEdges = ((g.mergeMultiEdges).1, false)) := by
  constructor
  · intro g
    exact mergeMultiEdgesL_of_pairwise _
      (mergeRun_pairwise keyOfL mergeEdgeL keyOfL_mergeEdgeL g.edges.length g.edges le_rfl)
  · intro g
    exact mergeMultiEdgesH_of_pairwise _
      (mergeRun_pairwise keyOfH mergeEdgeH keyOfH_mergeEdgeH g.edges.length g.edges le_rfl)

/-- Claim C9 (confirmed): `ChcDirectedHyperGraph::mergeMultiEdges` returns
`true` iff before the call there were two distinct single-source edges (two
positions of the edge list) with the same `(from, to)` pair. -/
theorem mergeMultiEdges_changed_iff (g : ChcDirectedHyperGraph) :
    (g.mergeMultiEdges).2 = true ↔
      ∃ e f, List.Sublist [e, f] g.edges ∧
        (∃ s, e.fromS = [s] ∧ f.fromS = [s]) ∧ e.toS = f.toS := by
  show hasDup keyOfH g.edges = true ↔ _
  rw [hasDup_true_iff]
  constructor
  · rintro ⟨a, b, hsub, hk⟩
    rcases (keyMatchH_true_iff a b).1 hk with ⟨s, h1, h2, h3⟩
    exact ⟨a, b, hsub, ⟨s, h1, h2⟩, h3⟩
  · rintro ⟨a, b, hsub, ⟨s, h1, h2⟩, h3⟩
    exact ⟨a, b, hsub, (keyMatchH_true_iff a b).2 ⟨s, h1, h2, h3⟩⟩

/-- Claim C7 (confirmed): `AcceleratedBmcBase::solve(ChcDirectedHyperGraph&)`
fails with the `Not supported yet!` error on every hypergraph, whatever its
shape. -/
theorem solveHyperGraph_notSupported :
    ∀ g : ChcDirectedHyperGraph,
      AcceleratedBmcBase.solveHyperGraph g = Except.error notSupportedMsg :=
  fun _ => rfl

/-- Reversing an already reversed edge restores it, provided its label only
mentions version-0 variables of its source and version-1 variables of its
target. -/
theorem reverseEdge_reverseEdge (g1 g2 : ChcDirectedGraph) (e : DirectedEdge)
    (hpred : g2.predicates = g1.predicates)
    (hwf : ∀ p ∈ e.fla.vars,
      (p.2 = 0 ∧ p.1 ∈ predBases g1.predicates e.fromS) ∨
      (p.2 = 1 ∧ p.1 ∈ predBases g1.predicates e.toS)) :
    g2.reverseEdge (g1.reverseEdge e) = e := by
  cases e with
  | mk efrom eto efla eid =>
    unfold ChcDirectedGraph.reverseEdge
    simp only [hpred, DirectedEdge.mk.injEq]
    refine ⟨trivial, trivial, ?_, trivial⟩
    rw [substTerm_substTerm]
    apply substTerm_eq_self
    intro p hp
    rcases hwf p hp with ⟨h0, hmem⟩ | ⟨h1, hmem⟩
    · obtain ⟨b, v⟩ := p
      simp only at h0 hmem
      subst h0
      simp [revSubst, hmem]
    · obtain ⟨b, v⟩ := p
      simp only at h1 hmem
      subst h1
      simp [revSubst, hmem]

/-- Claim C3 (confirmed): for every linear graph whose edge labels respect
the canonical representation (version-0 source variables and version-1
target variables only), `reverse` is an involution: `g.reverse.reverse = g`,
each edge restored with its original endpoints and exactly its original
label. -/
theorem reverse_reverse (g : ChcDirectedGraph) (h : g.wellFormedLabels) :
    g.reverse.reverse = g := by
  have hedges : (g.reverse.reverse).edges = g.edges := by
    show ((g.edges.map (fun e => g.reverseEdge e)).map
      (fun e => (g.reverse).reverseEdge e)) = g.edges
    rw [List.map_map]
    apply list_map_id_on
    intro e he
    show (g.reverse).reverseEdge (g.reverseEdge e) = e
    exact reverseEdge_reverseEdge g g.reverse e rfl (h e he)
  calc g.reverse.reverse
      = ⟨(g.reverse.reverse).edges, (g.reverse.reverse).predicates⟩ := rfl
    _ = g := by
        rw [hedges]
        exact rfl

/-- Witness for claim C3: a concrete one-edge graph with well-formed label,
restored exactly by reversing twice. -/
theorem reverse_reverse_w : gC3.reverse.reverse = gC3 :=
  reverse_reverse gC3 (by unfold ChcDirectedGraph.wellFormedLabels; decide)

/-- Claim C10 (confirmed): `ChcDirectedGraph::contractVertex(v)` implicitly
requires that no edge incident to `v` is a self-loop; under that precondition
its internal assertions hold (no assertion failure), and the resulting graph
consists of the untouched edges not incident to `v` together with one merged
edge for every incoming/outgoing pair of `v`. -/
theorem contractVertexL_spec (qe : List (Nat × Nat) → Term → Term)
    (g : ChcDirectedGraph) (v : Nat)
    (h : ∀ e ∈ g.edges, (e.toS = v ∨ e.fromS = v) → e.fromS ≠ e.toS) :
    ∃ g2, g.contractVertex qe v = some g2 ∧ g2.predicates = g.predicates ∧
      ∀ e, e ∈ g2.edges ↔
        ((e ∈ g.edges ∧ e.fromS ≠ v ∧ e.toS ≠ v) ∨
         (∃ i ∈ g.edges, i.toS = v ∧ ∃ o ∈ g.edges, o.fromS = v ∧
            e = g.mergeEdgesPair qe i o)) := by
  have hcond1 : (g.edges.filter (fun e => e.toS == v)).any (fun e => e.fromS == e.toS) = false := by
    rw [List.any_eq_false]
    intro e he
    rcases List.mem_filter.1 he with ⟨hin, hto⟩
    have hto2 : e.toS = v := by simpa using hto
    have hne := h e hin (Or.inl hto2)
    simp [hne]
  have hcond2 : (g.edges.filter (fun e => e.fromS == v)).any (fun e => e.fromS == e.toS) = false := by
    rw [List.any_eq_false]
    intro e he
    rcases List.mem_filter.1 he with ⟨hin, hfrom⟩
    have hfrom2 : e.fromS = v := by simpa using hfrom
    have hne := h e hin (Or.inr hfrom2)
    simp [hne]
  have heq : g.contractVertex qe v = some { g with
      edges := (g.edges ++ (g.edges.filter (fun e => e.toS == v)).flatMap
        (fun i => (g.edges.filter (fun e => e.fromS == v)).map
          (fun o => g.mergeEdgesPair qe i o))).filter
        (fun e => !(e.fromS == v || e.toS == v)) } := by
    simp only [ChcDirectedGraph.contractVertex]
    rw [hcond1, hcond2]
    simp
  refine ⟨_, heq, rfl, ?_⟩
  intro e
  constructor
  · intro he
    rcases List.mem_filter.1 he with ⟨hmem, hp⟩
    have hp1 : e.fromS ≠ v := by
      intro hc
      simp [hc] at hp
    have hp2 : e.toS ≠ v := by
      intro hc
      simp [hc] at hp
    rcases List.mem_append.1 hmem with hold | hnew
    · exact Or.inl ⟨hold, hp1, hp2⟩
    · rcases List.mem_flatMap.1 hnew with ⟨i, hi, hmap⟩
      rcases List.mem_map.1 hmap with ⟨o, ho, rfl⟩
      rcases List.mem_filter.1 hi with ⟨hi1, hi2⟩
      rcases List.mem_filter.1 ho with ⟨ho1, ho2⟩
      exact Or.inr ⟨i, hi1, by simpa using hi2, o, ho1, by simpa using ho2, rfl⟩
  · intro hrhs
    rcases hrhs with ⟨hold, hf, ht⟩ | ⟨i, hi, hiv, o, ho, hov, rfl⟩
    · apply List.mem_filter.2
      refine ⟨List.mem_append.2 (Or.inl hold), ?_⟩
      simp [hf, ht]
    · apply List.mem_filter.2
      constructor
      · refine List.mem_append.2 (Or.inr ?_)
        apply List.mem_flatMap.2
        refine ⟨i, List.mem_filter.2 ⟨hi, by simpa using hiv⟩, ?_⟩
        exact List.mem_map.2 ⟨o, List.mem_filter.2 ⟨ho, by simpa using hov⟩, rfl⟩
      · have h1 : i.fromS ≠ v := by
          intro hc
          exact (h i hi (Or.inl hiv)) (hc.trans hiv.symm)
        have h2 : o.toS ≠ v := by
          intro hc
          exact (h o ho (Or.inr hov)) (hov.trans hc.symm)
        simp [ChcDirectedGraph.mergeEdgesPair, h1, h2]

/-- Witness for claim C10: contracting the middle vertex of the two-edge
chain `0 → 5 → 1`, which has no self-loops. -/
theorem contractVertexL_spec_w :
    ∃ g2, gC10.contractVertex qeId 5 = some g2 ∧ g2.predicates = gC10.predicates ∧
      ∀ e, e ∈ g2.edges ↔
        ((e ∈ gC10.edges ∧ e.fromS ≠ 5 ∧ e.toS ≠ 5) ∨
         (∃ i ∈ gC10.edges, i.toS = 5 ∧ ∃ o ∈ gC10.edges, o.fromS = 5 ∧
            e = gC10.mergeEdgesPair qeId i o)) :=
  contractVertexL_spec qeId gC10 5 (by decide)

/-- The inner outgoing-edge loop of hypergraph vertex contraction throws iff
some outgoing edge has more than one source. -/
theorem contractInnerH_err (qe : List (Nat × Nat) → Term → Term)
    (g : ChcDirectedHyperGraph) (i : DirectedHyperEdge) :
    ∀ out : List DirectedHyperEdge,
      ((contractInnerH qe g i out).2).isSome = true ↔ ∃ o ∈ out, 1 < o.fromS.length := by
  intro out
  induction out with
  | nil => simp [contractInnerH]
  | cons o orest ih =>
    by_cases ho : 1 < o.fromS.length
    · simp [contractInnerH, ho]
    · simp only [contractInnerH, ho, if_false, List.mem_cons]
      rw [ih]
      constructor
      · rintro ⟨o2, h1, h2⟩
        exact ⟨o2, Or.inr h1, h2⟩
      · rintro ⟨o2, h1, h2⟩
        rcases h1 with rfl | h1
        · exact absurd h2 ho
        · exact ⟨o2, h1, h2⟩

/-- The outer incoming-edge loop of hypergraph vertex contraction throws iff
some incoming edge has more than one source, or there is at least one
incoming edge and some outgoing edge has more than one source. -/
theorem contractOuterH_err (qe : List (Nat × Nat) → Term → Term)
    (g : ChcDirectedHyperGraph) :
    ∀ (inc out : List DirectedHyperEdge),
      ((contractOuterH qe g inc out).2).isSome = true ↔
        ((∃ i ∈ inc, 1 < i.fromS.length) ∨
         (inc ≠ [] ∧ ∃ o ∈ out, 1 < o.fromS.length)) := by
  intro inc
  induction inc with
  | nil =>
    intro out
    simp [contractOuterH]
  | cons i irest ih =>
    intro out
    by_cases hi : 1 < i.fromS.length
    · simp only [contractOuterH, hi, if_true]
      simp only [Option.isSome_some, true_iff]
      exact Or.inl ⟨i, by simp, hi⟩
    · cases hr : (contractInnerH qe g i out).2 with
      | some err =>
        have h1 : ∃ o ∈ out, 1 < o.fromS.length := by
          rw [← contractInnerH_err qe g i out]
          simp [hr]
        simp only [contractOuterH, hi, if_false, hr]
        simp only [Option.isSome_some, true_iff]
        exact Or.inr ⟨by simp, h1⟩
      | none =>
        have hnone : ¬ ∃ o ∈ out, 1 < o.fromS.length := by
          rw [← contractInnerH_err qe g i out]
          simp [hr]
        simp only [contractOuterH, hi, if_false, hr]
        rw [ih out]
        constructor
        · rintro (h1 | ⟨-, h2⟩)
          · rcases h1 with ⟨i2, hi2, hlen⟩
            exact Or.inl ⟨i2, by simp [hi2], hlen⟩
          · exact absurd h2 hnone
        · rintro (h1 | ⟨-, h2⟩)
          · rcases h1 with ⟨i2, hi2, hlen⟩
            rcases List.mem_cons.1 hi2 with rfl | hi2r
            · exact absurd hlen hi
            · exact Or.inl ⟨i2, hi2r, hlen⟩
          · exact absurd h2 hnone

/-- Claim C6, counterexample: contracting vertex 5 of `gC6` (which has the
hyper incoming edge `[6,7] → 5`) does throw, but before the throw the merged
edge built from `[2] → 5` and `[5] → 3` has already been added, so the graph
observed by the caller is not the original one: the operation is not
transactional. -/
theorem contractVertexH_cex :
    ((gC6.contractVertex qeId 5).2).isSome = true ∧
    (gC6.contractVertex qeId 5).1 ≠ gC6 := by
  decide

/-- Claim C6, amended: `ChcDirectedHyperGraph::contractVertex(v)` reports the
structural failure (cannot contract through a hyperedge) iff `v` has at least
one incoming edge and some edge incident to `v` has more than one source; in
particular a vertex with no incoming edge is contracted silently even when a
hyperedge leaves it, and on failure merged edges already created for earlier
incoming/outgoing pairs remain in the graph. -/
theorem contractVertexH_error_iff (qe : List (Nat × Nat) → Term → Term)
    (g : ChcDirectedHyperGraph) (v : Nat) :
    ((g.contractVertex qe v).2).isSome = true ↔
      (incidentIncomingH g.edges v ≠ [] ∧
       ∃ e ∈ incidentIncomingH g.edges v ++ incidentOutgoingH g.edges v,
         1 < e.fromS.length) := by
  have hsnd : (g.contractVertex qe v).2 =
      (contractOuterH qe g (incidentIncomingH g.edges v) (incidentOutgoingH g.edges v)).2 := by
    simp only [ChcDirectedHyperGraph.contractVertex]
    cases hs : (contractOuterH qe g (incidentIncomingH g.edges v)
        (incidentOutgoingH g.edges v)).2 <;> simp [hs]
  rw [hsnd, contractOuterH_err]
  constructor
  · rintro (⟨i, hi, hlen⟩ | ⟨hne, o, ho, hlen⟩)
    · exact ⟨List.ne_nil_of_mem hi, i, List.mem_append.2 (Or.inl hi), hlen⟩
    · exact ⟨hne, o, List.mem_append.2 (Or.inr ho), hlen⟩
  · rintro ⟨hne, e, he, hlen⟩
    rcases List.mem_append.1 he with h1 | h1
    · exact Or.inl ⟨e, h1, hlen⟩
    · exact Or.inr ⟨hne, e, h1, hlen⟩

/-- Invariant of the k-induction loop: at iteration `j` the base context
holds exactly `init` and the transitions shifted to times `0..j-1`, so a
`foundBug k` answer comes from a satisfiable check of that context plus the
query shifted to time `k`. -/
theorem kindLoop_foundBug (check : List KFla → SolverRes) :
    ∀ (fuel k j : Nat) (base fwd bwd : List KFla),
      base = KFla.finit :: (List.range j).map KFla.ftr →
      kindLoop check fuel j base fwd bwd = KResult.foundBug k →
      check ((KFla.finit :: (List.range k).map KFla.ftr) ++ [KFla.fqy k]) =
        SolverRes.sTrue := by
  intro fuel
  induction fuel with
  | zero =>
    intro k j base fwd bwd hbase hrun
    simp [kindLoop] at hrun
  | succ n ih =>
    intro k j base fwd bwd hbase hrun
    rw [kindLoop] at hrun
    by_cases h1 : check (base ++ [KFla.fqy j]) = SolverRes.sTrue
    · rw [if_pos h1] at hrun
      have hjk : j = k := by
        cases hrun
        rfl
      subst hjk
      rw [hbase] at h1
      exact h1
    · rw [if_neg h1] at hrun
      by_cases h2 : check fwd = SolverRes.sFalse
      · rw [if_pos h2] at hrun
        exact (KResult.noConfusion hrun)
      · rw [if_neg h2] at hrun
        by_cases h3 : check bwd = SolverRes.sFalse
        · rw [if_pos h3] at hrun
          exact (KResult.noConfusion hrun)
        · rw [if_neg h3] at hrun
          refine ih k (j + 1) _ _ _ ?_ hrun
          rw [hbase, List.range_succ, List.map_append]
          simp

/-- Claim C4 (confirmed): whenever `Kind::solveTransitionSystem` returns
UNSAFE at depth `k` and the solver answers `s_True` only on satisfiable
assertion lists, the k-step unrolling
`init(x0) ∧ transition(x0,x1) ∧ ... ∧ transition(x_{k-1},x_k) ∧ query(x_k)`
is satisfiable: the base context at step `k` holds exactly those formulas
and UNSAFE is reported only when that check is SAT. -/
theorem kind_foundBug_sat (S : Type) (initP : S → Prop) (trP : S → S → Prop)
    (qyP : S → Prop) (check : List KFla → SolverRes) (maxK k : Nat)
    (hsound : ∀ fs, check fs = SolverRes.sTrue → KSat S initP trP qyP fs)
    (hrun : kindSolveTransitionSystem check maxK = KResult.foundBug k) :
    ∃ tr : Nat → S, initP (tr 0) ∧ (∀ i, i < k → trP (tr i) (tr (i + 1))) ∧
      qyP (tr k) := by
  unfold kindSolveTransitionSystem at hrun
  by_cases h0 : check [KFla.finit] = SolverRes.sFalse
  · rw [if_pos h0] at hrun
    exact (KResult.noConfusion hrun)
  · rw [if_neg h0] at hrun
    have hchk := kindLoop_foundBug check maxK k 0 _ _ _ (by simp) hrun
    rcases hsound _ hchk with ⟨tr, htr⟩
    refine ⟨tr, ?_, ?_, ?_⟩
    · exact htr KFla.finit (by simp)
    · intro i hi
      have hmem : KFla.ftr i ∈
          (KFla.finit :: (List.range k).map KFla.ftr) ++ [KFla.fqy k] := by
        apply List.mem_append.2
        apply Or.inl
        apply List.mem_cons.2
        apply Or.inr
        exact List.mem_map.2 ⟨i, List.mem_range.2 hi, rfl⟩
      exact htr _ hmem
    · exact htr (KFla.fqy k) (List.mem_append.2 (Or.inr (by simp)))

/-- The concrete `demoCheck` solver is sound for the all-true transition
system over `Unit`: it answers `s_True` only on lists without negated
formulas, and those are satisfied by the constant trace. -/
theorem demoCheck_sound : ∀ fs, demoCheck fs = SolverRes.sTrue →
    KSat Unit (fun _ => True) (fun _ _ => True) (fun _ => True) fs := by
  intro fs h
  refine ⟨fun _ => (), ?_⟩
  intro f hf
  have hna : fs.any isNegKF = false := by
    by_contra hc
    rw [Bool.not_eq_false] at hc
    rw [demoCheck, if_pos hc] at h
    exact SolverRes.noConfusion h
  have hnf := (List.any_eq_false.1 hna) f hf
  cases f with
  | finit => exact trivial
  | ftr k => exact trivial
  | fqy k => exact trivial
  | fnegQy k => exact absurd rfl hnf
  | fnegInit k => exact absurd rfl hnf
  | fbackTr k => exact trivial

/-- Witness for claim C4: the all-true system over `Unit` with the sound
solver `demoCheck` reaches UNSAFE at depth 0, and the conclusion holds. -/
theorem kind_foundBug_sat_w :
    ∃ tr : Nat → Unit, (fun _ : Unit => True) (tr 0) ∧
      (∀ i, i < 0 → (fun _ _ : Unit => True) (tr i) (tr (i + 1))) ∧
      (fun _ : Unit => True) (tr 0) :=
  kind_foundBug_sat Unit (fun _ => True) (fun _ _ => True) (fun _ => True)
    demoCheck 1 0 demoCheck_sound (by decide)

/-- Claim C5 (confirmed): for every transition system whose `init` formula is
unsatisfiable, and a solver that answers `s_False` on unsatisfiable assertion
lists, `Kind::solveTransitionSystem` returns SAFE immediately: the very first
check on the base context (holding only `init`) is UNSAT and SAFE is
returned before the k-loop runs, whatever the loop bound is. -/
theorem kind_empty_init_safe (S : Type) (initP : S → Prop) (trP : S → S → Prop)
    (qyP : S → Prop) (check : List KFla → SolverRes)
    (hinit : ∀ s : S, ¬ initP s)
    (hcomplete : ∀ fs, ¬ KSat S initP trP qyP fs → check fs = SolverRes.sFalse) :
    ∀ maxK, kindSolveTransitionSystem check maxK = KResult.safe := by
  intro maxK
  have h : check [KFla.finit] = SolverRes.sFalse := by
    apply hcomplete
    rintro ⟨tr, htr⟩
    exact hinit (tr 0) (htr KFla.finit (by simp))
  rw [kindSolveTransitionSystem, if_pos h]

/-- Witness for claim C5: the empty-init system over `Unit` with an
always-UNSAT solver returns SAFE, already at loop bound 3. -/
theorem kind_empty_init_safe_w :
    kindSolveTransitionSystem (fun _ => SolverRes.sFalse) 3 = KResult.safe :=
  kind_empty_init_safe Unit (fun _ => False) (fun _ _ => True) (fun _ => True)
    (fun _ => SolverRes.sFalse) (fun _ h => h) (fun _ _ => rfl) 3
